import Mathlib

/-! # relay-monitor: consensus data cache and beacon watcher

A shallow embedding of `internal/cache/consensus_data.go` and
`internal/consensus/beacon_watcher.go`, with the properties of the
consensus data cache, of the watcher's constructor and of its three loops.

Go values are embedded as follows: `uint64` values are natural numbers, a
`[]uint64` is an optional list (`none` is the nil slice), an `error` is an
optional message (`none` is the nil error), the package-level Prometheus
counters are natural numbers carried in the state.
-/

set_option autoImplicit false

namespace cache

/-! ## Data model -/

/-- Epoch numbers, `types.Epoch` in the source (an unsigned 64-bit integer used only as a key). -/
abbrev Epoch := Nat

/-- Proposer duties, the Go type `[]uint64`: `none` is the nil slice, `some l` a non-nil slice. -/
abbrev Duties := Option (List Nat)

/-- Go errors: `none` is the nil error. -/
abbrev GoError := Option String

/-- Values of Go type `interface{}` as the LRU stores them: the nil interface, or an
interface holding a `[]uint64` (which is not the nil interface even when the slice is nil). -/
inductive Item where
  | nilIface
  | slice (d : Duties)
deriving DecidableEq, Repr

/-- Test `item != nil` on an interface value. -/
def Item.notNil : Item → Bool
  | .nilIface => false
  | .slice _ => true

/-- Type assertion `item.([]uint64)`, used only on items that are not the nil interface. -/
def Item.toDuties : Item → Duties
  | .nilIface => none
  | .slice d => d

/-- One element of the eviction list of the LRU (`entry` of `simplelru`): a key with its value. -/
structure entry where
  key : Epoch
  value : Item
deriving DecidableEq, Repr

/-- The cache of the `hashicorp/golang-lru` dependency (imported at `consensus_data.go:6`):
a capacity and the eviction list, most recently used entry first. The `items` index of the
library maps each key to its list element; here it is the lookup `LRU.items` in the list. -/
structure LRU where
  size : Nat
  evictList : List entry
deriving DecidableEq, Repr

/-- Constructor `lru.New(size)` of the dependency: a non-positive size is an error. -/
def lruNew (size : Int) : Except String LRU :=
  if size ≤ 0 then .error "must provide a positive size" else .ok ⟨size.toNat, []⟩

/-- Wrapper `lruwrpr.New(size)` of the prysm dependency: as `lru.New`, panicking (`none`)
when that returns an error. -/
def lruwrprNew (size : Int) : Option LRU :=
  match lruNew size with
  | .ok c => some c
  | .error _ => none

/-- Whether a list element carries the key `key`. -/
def hasKey (key : Epoch) (e : entry) : Bool := e.key == key

/-- Index lookup `c.items[key]`: the list element stored under `key`, if any. -/
def LRU.items (c : LRU) (key : Epoch) : Option entry :=
  c.evictList.find? (hasKey key)

/-- Number of entries held, `Len()`. -/
def LRU.Len (c : LRU) : Nat := c.evictList.length

/-- Removal of the entry at the back of the eviction list, the least recently used one. -/
def LRU.removeOldest (c : LRU) : LRU :=
  { c with evictList := c.evictList.dropLast }

/-- Method `Add(key, value)` of the LRU: an existing key is moved to the front and its value
overwritten; a new key is pushed to the front, and the oldest entry is removed when the length
then exceeds the capacity. The boolean tells whether an eviction took place. -/
def LRU.Add (c : LRU) (key : Epoch) (value : Item) : LRU × Bool :=
  match c.items key with
  | some _ =>
    ({ c with evictList := ⟨key, value⟩ :: c.evictList.eraseP (hasKey key) }, false)
  | none =>
    let c1 : LRU := { c with evictList := ⟨key, value⟩ :: c.evictList }
    let evict := decide (c1.evictList.length > c1.size)
    if evict then (c1.removeOldest, true) else (c1, false)

/-- Method `Get(key)` of the LRU: a present key is moved to the front and its value returned
with `true`; an absent key gives the nil interface and `false`, and changes nothing. -/
def LRU.Get (c : LRU) (key : Epoch) : LRU × Item × Bool :=
  match c.items key with
  | some ent =>
    ({ c with evictList := ent :: c.evictList.eraseP (hasKey key) }, ent.value, true)
  | none => (c, .nilIface, false)

/-- The variable `maxBlocks` of `consensus_data.go`. -/
def maxBlocks : Int := 4096

/-- The struct `ConsensusDataCache` (its lock has no content of its own). -/
structure ConsensusDataCache where
  cache : LRU
deriving DecidableEq, Repr

/-- A cache together with the two package-level counters `cacheMissCount` and
`cacheHitCount` that its methods increment. -/
structure State where
  c : ConsensusDataCache
  cacheMissCount : Nat
  cacheHitCount : Nat
deriving DecidableEq, Repr

/-- Constructor `NewConsensusDataCache`: `none` when `lruwrpr.New` panics. -/
def NewConsensusDataCache : Option ConsensusDataCache :=
  match lruwrprNew maxBlocks with
  | some l => some { cache := l }
  | none => none

/-- Method `ProposerDuties(epoch)`: the returned pair `([]uint64, error)` and the state after
the call. -/
def ProposerDuties (s : State) (epoch : Epoch) : (Duties × GoError) × State :=
  match s.c.cache.Get epoch with
  | (c1, item, found) =>
    if found && item.notNil then
      ((item.toDuties, none),
        { s with c := { cache := c1 }, cacheHitCount := s.cacheHitCount + 1 })
    else
      ((none, none),
        { s with c := { cache := c1 }, cacheMissCount := s.cacheMissCount + 1 })

/-- Method `AddProposerDuties(epoch, duties)`: the duties are stored as an interface value. -/
def AddProposerDuties (s : State) (epoch : Epoch) (duties : Duties) : State :=
  { s with c := { cache := (s.c.cache.Add epoch (.slice duties)).1 } }

/-- A call made on the cache by a client. -/
inductive Call where
  | add (epoch : Epoch) (duties : Duties)
  | get (epoch : Epoch)
deriving DecidableEq, Repr

/-- The state after one call. -/
def step (s : State) : Call → State
  | .add e d => AddProposerDuties s e d
  | .get e => (ProposerDuties s e).2

/-- The state after a sequence of calls, made from left to right. -/
def run (s : State) (calls : List Call) : State :=
  calls.foldl step s

/-- The state after `AddProposerDuties(k, d k)` for `k = 0, 1, ..., n-1`, in that order. -/
def fill (d : Epoch → Duties) (n : Nat) (s : State) : State :=
  (List.range n).foldl (fun st k => AddProposerDuties st k (d k)) s

/-- The state after filling a cache with the epochs `0, ..., 4095` and then adding
epoch `4096`, each epoch `k` with the duties `d k`. -/
def fillThenOverflow (d : Epoch → Duties) (s : State) : State :=
  AddProposerDuties (fill d 4096 s) 4096 (d 4096)

/-- The entries for the `n` epochs `lo, ..., lo + n - 1` with duties `d`, latest epoch
first: the eviction list after these epochs were added in increasing order. -/
def descFrom (d : Epoch → Duties) (lo : Nat) : Nat → List entry
  | 0 => []
  | n + 1 => ⟨lo + n, .slice (d (lo + n))⟩ :: descFrom d lo n

/-- Well-formedness of an LRU: no more entries than the capacity, and no key twice. -/
def LRU.WF (c : LRU) : Prop :=
  c.evictList.length ≤ c.size ∧ (c.evictList.map entry.key).Nodup

/-- The epochs held by a state, most recently used first. -/
def State.epochs (s : State) : List Epoch :=
  s.c.cache.evictList.map entry.key

end cache

namespace strconv

/-! ## The integer parser of the Go standard library used by the head-event handler

`strconv.Atoi` is not part of the repository; the definitions below follow the standard
library's implementation for a 64-bit `int`, over the characters of the string. On strings
of ASCII characters this is the library's byte-wise behaviour; a character outside
`'0'..'9'` (whatever its bytes) is never a decimal digit, so a string with other characters
is an error in the library and here. -/

/-- The two kinds of `*NumError` the parser reports (`ErrSyntax`, `ErrRange`). -/
inductive NumError where
  | ErrSyntax
  | ErrRange
deriving DecidableEq, Repr

/-- Value of a decimal digit, `ch - '0'` when that is at most 9. -/
def digitVal (c : Char) : Option Nat :=
  if '0'.toNat ≤ c.toNat ∧ c.toNat ≤ '9'.toNat then some (c.toNat - '0'.toNat) else none

/-- The digit loop of the fast path of `Atoi`: `n = n*10 + int(ch)`, a non-digit is a
syntax error. -/
def fastLoop : List Char → Nat → Option Nat
  | [], n => some n
  | ch :: rest, n =>
    match digitVal ch with
    | none => none
    | some d => fastLoop rest (n * 10 + d)

/-- Largest `uint64`. -/
def maxUint64 : Nat := 2 ^ 64 - 1

/-- The digit loop of `ParseUint(s, 10, 64)`: a non-digit is a syntax error, a value that
leaves the `uint64` range a range error. -/
def parseUintLoop : List Char → Nat → Except NumError Nat
  | [], n => .ok n
  | c :: rest, n =>
    match digitVal c with
    | none => .error .ErrSyntax
    | some d =>
      if n ≥ maxUint64 / 10 + 1 then .error .ErrRange
      else
        let n1 := n * 10 + d
        if n1 > maxUint64 then .error .ErrRange else parseUintLoop rest n1

/-- Standard library `ParseUint(s, 10, 64)`. -/
def ParseUint (s : List Char) : Except NumError Nat :=
  if s = [] then .error .ErrSyntax else parseUintLoop s 0

/-- Standard library `ParseInt(s, 10, 0)` with a 64-bit `int`: an optional sign, then
`ParseUint`; the magnitude must fit the signed range. -/
def ParseInt (s : List Char) : Except NumError Int :=
  match s with
  | [] => .error .ErrSyntax
  | c0 :: rest =>
    let neg := c0 == '-'
    let body := if c0 == '+' || c0 == '-' then rest else s
    match ParseUint body with
    | .error e => .error e
    | .ok un =>
      let cutoff : Nat := 2 ^ 63
      if !neg && un ≥ cutoff then .error .ErrRange
      else if neg && un > cutoff then .error .ErrRange
      else .ok (if neg then -(un : Int) else (un : Int))

/-- Standard library `Atoi(s)` with a 64-bit `int`: strings of 1 to 18 bytes take the fast
path (optional sign, then digits), all others go through `ParseInt(s, 10, 0)`. -/
def Atoi (s : String) : Except NumError Int :=
  let cs := s.toList
  if 0 < cs.length ∧ cs.length < 19 then
    match cs with
    | [] => .error .ErrSyntax
    | c0 :: rest =>
      let body := if c0 == '-' || c0 == '+' then rest else cs
      if body.length < 1 then .error .ErrSyntax
      else
        match fastLoop body 0 with
        | none => .error .ErrSyntax
        | some n => .ok (if c0 == '-' then -(n : Int) else (n : Int))
  else ParseInt cs

end strconv

namespace consensus

/-! ## Data model of the beacon watcher -/

/-- Modelled from the spec: the type `types.Root` of the repository's `pkg/types` package,
which is not among the sources; a 32-byte opaque digest identifying a beacon block, given
here by its bytes. -/
structure Root where
  bytes : List Nat
deriving DecidableEq, Repr

/-- Modelled from the spec: the type `types.Hash` of the repository's `pkg/types` package,
which is not among the sources; the 32-byte opaque digest of an execution-layer block. -/
structure Hash where
  bytes : List Nat
deriving DecidableEq, Repr

/-- Modelled from the spec: the type `types.Coordinate` of the repository's `pkg/types`
package, which is not among the sources; the pair of a slot (an unsigned 64-bit integer) and
a root. -/
structure Coordinate where
  Slot : Nat
  Root : Root
deriving DecidableEq, Repr

/-- Modelled from the spec: the event `HeadObservation(slot, root, execution_hash)` carried by
the internal event feed of the spec; the source declares no such type. -/
structure HeadObservation where
  slot : Nat
  root : Root
  executionHash : Hash
deriving DecidableEq, Repr

/-- The struct `BeaconWatcher`; a nil cache pointer is `none`. The epoch clock is set by
`Start` from `genesis` and is given by the start time and period it is made from. -/
structure BeaconWatcher where
  consensusCache : Option cache.ConsensusDataCache
  epochClock : Option (Nat × Nat)
  genesis : Nat
  beaconAPIEndpoint : String
deriving DecidableEq, Repr

/-- The Go type `Option = func(b *BeaconWatcher) error`: the watcher after the call and the
error returned. -/
abbrev BeaconOption := BeaconWatcher → BeaconWatcher × cache.GoError

/-- Option `WithCache(c)`. -/
def WithCache (c : cache.ConsensusDataCache) : BeaconOption :=
  fun b => ({ b with consensusCache := some c }, none)

/-- Option `WithEndpoint(endpoint)`. -/
def WithEndpoint (endpoint : String) : BeaconOption :=
  fun b => ({ b with beaconAPIEndpoint := endpoint }, none)

/-- Option `WithGenesisTime(genesis)`. -/
def WithGenesisTime (genesis : Nat) : BeaconOption :=
  fun b => ({ b with genesis := genesis }, none)

/-- The zero value `&BeaconWatcher{}`. -/
def BeaconWatcher.zero : BeaconWatcher :=
  { consensusCache := none, epochClock := none, genesis := 0, beaconAPIEndpoint := "" }

/-- The loop of `New` over the options: the first error stops it. -/
def applyOpts : List BeaconOption → BeaconWatcher → Option BeaconWatcher × cache.GoError
  | [], bw => (some bw, none)
  | opt :: rest, bw =>
    match opt bw with
    | (_, some err) => (none, some err)
    | (bw1, none) => applyOpts rest bw1

/-- Constructor `New(opts...)`: the pair `(*BeaconWatcher, error)` it returns. -/
def New (opts : List BeaconOption) : Option BeaconWatcher × cache.GoError :=
  applyOpts opts BeaconWatcher.zero

/-- The options the package exports, by name. -/
inductive OptionCall where
  | withCache (c : cache.ConsensusDataCache)
  | withEndpoint (endpoint : String)
  | withGenesisTime (genesis : Nat)
deriving DecidableEq, Repr

/-- The option a call of an exported option constructor yields. -/
def OptionCall.toOption : OptionCall → BeaconOption
  | .withCache c => WithCache c
  | .withEndpoint e => WithEndpoint e
  | .withGenesisTime g => WithGenesisTime g

/-- Whether a call is `WithEndpoint` with a non-empty endpoint. -/
def OptionCall.setsEndpoint : OptionCall → Bool
  | .withEndpoint e => e != ""
  | _ => false

/-! ## The head channel -/

/-- A Go buffered channel `make(chan T, cap)`: its capacity and the values sent and not yet
received, oldest first. -/
structure Chan (α : Type) where
  cap : Nat
  buf : List α
deriving DecidableEq, Repr

/-- The channel `make(chan T, cap)`. -/
def Chan.make {α : Type} (cap : Nat) : Chan α := { cap := cap, buf := [] }

/-- Send statement `ch <- v`: with room in the buffer the value is appended and the send
completes; with a full buffer the sender blocks (`none`) and the channel is as before. -/
def Chan.send {α : Type} (ch : Chan α) (v : α) : Option (Chan α) :=
  if ch.buf.length < ch.cap then some { ch with buf := ch.buf ++ [v] } else none

/-- Receive `<-ch`: the oldest buffered value is taken; on an empty buffer the receiver
blocks (`none`). -/
def Chan.recv {α : Type} (ch : Chan α) : Option (α × Chan α) :=
  match ch.buf with
  | [] => none
  | v :: rest => some (v, { ch with buf := rest })

/-! ## The head-event handler of `subscribeBeaconHeads` -/

/-- The struct `headEvent`. -/
structure headEvent where
  Slot : String
  Block : Root
deriving DecidableEq, Repr

/-- Conversion of an `int` to the unsigned 64-bit `consensustypes.Slot`. -/
def toSlot (slot : Int) : Nat := (slot % (2 : Int) ^ 64).toNat

/-- Lines 152 to 169 of the handler: the coordinate it is about to send, or `none` when it
returns early. `ctxErr` tells whether `ctx.Err() != nil`; `unmarshalled` is the result of
`json.Unmarshal(msg.Data, &event)`, the event or the error. -/
def headOf (ctxErr : Bool) (unmarshalled : Except String headEvent) : Option Coordinate :=
  if ctxErr then none
  else
    match unmarshalled with
    | .error _ => none
    | .ok event =>
      match strconv.Atoi event.Slot with
      | .error _ => none
      | .ok slot => some { Slot := toSlot slot, Root := event.Block }

/-- What one run of the handler does to the head channel. -/
inductive Outcome where
  | dropped
  | sent (ch : Chan Coordinate)
  | blocked (head : Coordinate) (ch : Chan Coordinate)
deriving DecidableEq, Repr

/-- The handler passed to `SubscribeRaw`: it returns early without sending (`dropped`), or
executes `ch <- head`, which completes (`sent`, with the channel after it) or blocks on a
full channel (`blocked`, with the pending head and the unchanged channel). -/
def handleHead (ctxErr : Bool) (unmarshalled : Except String headEvent)
    (ch : Chan Coordinate) : Outcome :=
  match headOf ctxErr unmarshalled with
  | none => .dropped
  | some head =>
    match ch.send head with
    | some ch1 => .sent ch1
    | none => .blocked head ch

/-- The head channel `make(chan *types.Coordinate, 1)` of `Start`. -/
def headChan : Chan Coordinate := Chan.make 1

/-! ## The loops of `Start` -/

/-- A line written to the log. -/
inductive LogEntry where
  | error (msg : String)
  | warn (msg : String)
  | infoHash (h : Hash)
deriving DecidableEq, Repr

/-- What the loops of `Start` can act on: the watcher (with its cache), the cache counters,
the log, and the internal event feed. -/
structure World where
  bw : BeaconWatcher
  cacheMissCount : Nat
  cacheHitCount : Nat
  log : List LogEntry
  feed : List HeadObservation
deriving DecidableEq, Repr

/-- The variants of `signedBeaconBlock.Data` after `beaconapi.BlockV2`: unset, a block of a
fork before Bellatrix, or a Bellatrix block, of which only
`Message.Body.ExecutionPayload.BlockHash` is read. -/
inductive BlockData where
  | unset
  | phase0
  | altair
  | bellatrix (blockHash : Hash)
deriving DecidableEq, Repr

/-- The answer of `beaconapi.BlockV2`: the two results and the block it filled in. -/
structure BlockV2Result where
  found : Bool
  err : cache.GoError
  data : BlockData
deriving DecidableEq, Repr

/-- One iteration of the block-fetch loop (lines 90 to 110) for the head taken from the
channel and the answer of the beacon node. The execution hash is written to the log and
then dropped by `_ = executionHash`; the loop has no statement that sends or stores it. -/
def processHead (w : World) (head : Coordinate) (r : BlockV2Result) : World :=
  let _blockID := head.Slot
  if !r.found then { w with log := w.log ++ [.error "Could not get block"] }
  else if r.err.isSome then { w with log := w.log ++ [.error "Could not get block"] }
  else
    match r.data with
    | .bellatrix blockHash =>
      let executionHash := blockHash
      { w with log := w.log ++ [.infoHash executionHash] }
    | _ => { w with log := w.log ++ [.error "Could not get block"] }

/-- The struct `eth2api.ProposerDuty`. -/
structure ProposerDuty where
  Pubkey : List Nat
  ValidatorIndex : Nat
  Slot : Nat
deriving DecidableEq, Repr

/-- The answer of `validatorapi.ProposerDuties`: the two results and `proposerDuties.Data`. -/
structure ProposerDutiesResult where
  syncing : Bool
  err : cache.GoError
  data : List ProposerDuty
deriving DecidableEq, Repr

/-- One iteration of the duty-refresh loop (lines 114 to 141) for an epoch tick and the
answer of the validator API. The loop over the duties only builds log fields
(`log.WithFields` emits nothing), and the cache write is commented out. -/
def refreshDuties (w : World) (_epoch : Nat) (r : ProposerDutiesResult) : World :=
  if r.syncing then { w with log := w.log ++ [.error "Syncing.."] }
  else if r.err.isSome then { w with log := w.log ++ [.error "Error occurred.."] }
  else r.data.foldl (fun w1 _duty => w1) w

/-- The duties a client reads from the watcher's cache for an epoch with
`ProposerDuties`; `none` when the watcher has no cache. -/
def World.cachedDuties (w : World) (epoch : Nat) : Option (cache.Duties × cache.GoError) :=
  match w.bw.consensusCache with
  | none => none
  | some c =>
    some (cache.ProposerDuties
      { c := c, cacheMissCount := w.cacheMissCount, cacheHitCount := w.cacheHitCount } epoch).1

end consensus

namespace cache

/-! ## Properties of the consensus data cache -/

/-- The constructor succeeds and gives the empty cache of capacity 4096. -/
theorem new_eq : NewConsensusDataCache = some { cache := { size := 4096, evictList := [] } } := by
  decide

/-- After `Add`, the key is at the front of the list with the value added, provided the
capacity is positive. -/
theorem add_front (c : LRU) (h : 0 < c.size) (k : Epoch) (v : Item) :
    ∃ l, (c.Add k v).1 = { size := c.size, evictList := ⟨k, v⟩ :: l } := by
  unfold LRU.Add
  cases hk : c.items k with
  | some e => exact ⟨_, rfl⟩
  | none =>
    simp only [LRU.removeOldest]
    split
    · cases hl : c.evictList with
      | nil => simp_all
      | cons a t => exact ⟨(a :: t).dropLast, by simp [List.dropLast]⟩
    · exact ⟨_, rfl⟩

/-- C1: for every cache state (of positive capacity, as every constructed cache has), every
epoch `E` and every duty list `d`, `AddProposerDuties(E, d)` followed directly by
`ProposerDuties(E)` returns exactly `d` with a nil error, and the read is counted as a hit
and not as a miss. -/
theorem add_then_get (s : State) (hsize : 0 < s.c.cache.size) (E : Epoch) (d : Duties) :
    (ProposerDuties (AddProposerDuties s E d) E).1 = (d, none) ∧
    (ProposerDuties (AddProposerDuties s E d) E).2.cacheHitCount = s.cacheHitCount + 1 ∧
    (ProposerDuties (AddProposerDuties s E d) E).2.cacheMissCount = s.cacheMissCount := by
  obtain ⟨l, hl⟩ := add_front s.c.cache hsize E (.slice d)
  simp [ProposerDuties, AddProposerDuties, hl, LRU.Get, LRU.items, hasKey, Item.notNil,
    Item.toDuties]

/-! ### Invariant -/

/-- The element found under a key carries that key. -/
theorem find_some_key {l : List entry} {k : Epoch} {e : entry}
    (h : l.find? (hasKey k) = some e) : e.key = k := by
  have := List.find?_some h
  simpa [hasKey] using this

/-- Erasing the element found under a key shortens the list by one. -/
theorem length_eraseP_of_find {l : List entry} {k : Epoch} {e : entry}
    (h : l.find? (hasKey k) = some e) :
    (l.eraseP (hasKey k)).length + 1 = l.length := by
  have hm : e ∈ l := List.mem_of_find?_eq_some h
  have hp : hasKey k e = true := List.find?_some h
  have hl := List.length_eraseP_of_mem hm hp
  have : 0 < l.length := List.length_pos_of_mem hm
  omega

/-- With distinct keys, a key is gone once its element is erased. -/
theorem key_not_mem_eraseP {l : List entry} {k : Epoch}
    (hnd : (l.map entry.key).Nodup) :
    k ∉ (l.eraseP (hasKey k)).map entry.key := by
  induction l with
  | nil => simp
  | cons a t ih =>
    simp only [List.map_cons, List.nodup_cons] at hnd
    by_cases hak : a.key = k
    · have : hasKey k a = true := by simp [hasKey, hak]
      rw [List.eraseP_cons_of_pos this]
      rw [← hak]; exact hnd.1
    · have : ¬ hasKey k a = true := by simp [hasKey, hak]
      rw [List.eraseP_cons_of_neg this]
      simp only [List.map_cons, List.mem_cons, not_or]
      exact ⟨fun h => hak h.symm, ih hnd.2⟩

theorem nodup_eraseP {l : List entry} {k : Epoch}
    (hnd : (l.map entry.key).Nodup) :
    ((l.eraseP (hasKey k)).map entry.key).Nodup :=
  hnd.sublist ((List.eraseP_sublist l).map entry.key)

theorem find_none_not_mem {l : List entry} {k : Epoch}
    (h : l.find? (hasKey k) = none) : k ∉ l.map entry.key := by
  intro hk
  obtain ⟨e, he, hke⟩ := List.mem_map.mp hk
  have := List.find?_eq_none.mp h e he
  simp [hasKey, hke] at this

/-- Method `Add` keeps the LRU well formed and its capacity unchanged. -/
theorem add_wf (c : LRU) (h : c.WF) (k : Epoch) (v : Item) :
    (c.Add k v).1.WF ∧ (c.Add k v).1.size = c.size := by
  obtain ⟨hlen, hnd⟩ := h
  unfold LRU.Add
  cases hk : c.items k with
  | some e =>
    have hl := length_eraseP_of_find hk
    refine ⟨⟨?_, ?_⟩, rfl⟩
    · simp only [List.length_cons]; omega
    · simp only [List.map_cons, List.nodup_cons]
      exact ⟨key_not_mem_eraseP hnd, nodup_eraseP hnd⟩
  | none =>
    have hnot := find_none_not_mem hk
    have hnd1 : ((⟨k, v⟩ :: c.evictList : List entry).map entry.key).Nodup := by
      simp only [List.map_cons, List.nodup_cons]; exact ⟨hnot, hnd⟩
    simp only [LRU.removeOldest]
    split
    · refine ⟨⟨?_, ?_⟩, rfl⟩
      · simp only [List.length_dropLast, List.length_cons]; omega
      · exact hnd1.sublist ((List.dropLast_sublist _).map entry.key)
    · rename_i hev
      refine ⟨⟨?_, hnd1⟩, rfl⟩
      simp only [List.length_cons, gt_iff_lt, decide_eq_true_eq, not_lt] at hev
      simpa using hev

/-- Method `Get` keeps the LRU well formed and its capacity unchanged. -/
theorem get_wf (c : LRU) (h : c.WF) (k : Epoch) :
    (c.Get k).1.WF ∧ (c.Get k).1.size = c.size := by
  obtain ⟨hlen, hnd⟩ := h
  unfold LRU.Get
  cases hk : c.items k with
  | some e =>
    have hl := length_eraseP_of_find hk
    have hke := find_some_key hk
    refine ⟨⟨?_, ?_⟩, rfl⟩
    · simp only [List.length_cons]; omega
    · simp only [List.map_cons, List.nodup_cons, hke]
      exact ⟨key_not_mem_eraseP hnd, nodup_eraseP hnd⟩
  | none => exact ⟨⟨hlen, hnd⟩, rfl⟩

theorem step_wf (s : State) (h : s.c.cache.WF) (call : Call) :
    (step s call).c.cache.WF ∧ (step s call).c.cache.size = s.c.cache.size := by
  cases call with
  | add e d => exact add_wf s.c.cache h e (.slice d)
  | get e =>
    have := get_wf s.c.cache h e
    simp only [step, ProposerDuties]
    split <;> exact this

theorem run_wf (calls : List Call) (s : State) (h : s.c.cache.WF) :
    (run s calls).c.cache.WF ∧ (run s calls).c.cache.size = s.c.cache.size := by
  induction calls generalizing s with
  | nil => exact ⟨h, rfl⟩
  | cons a t ih =>
    have h1 := step_wf s h a
    have h2 := ih (step s a) h1.1
    exact ⟨h2.1, h2.2.trans h1.2⟩

/-- C3: for every finite sequence of `AddProposerDuties` and `ProposerDuties` calls applied
to a cache made by `NewConsensusDataCache`, after each call of the sequence (that is, after
every initial part of it) the cache holds at most 4096 entries, and no epoch twice. -/
theorem size_bounded (c0 : ConsensusDataCache) (hnew : NewConsensusDataCache = some c0)
    (miss hit : Nat) (calls : List Call) (n : Nat) :
    (run ⟨c0, miss, hit⟩ (calls.take n)).c.cache.Len ≤ 4096 ∧
    (run ⟨c0, miss, hit⟩ (calls.take n)).epochs.Nodup := by
  rw [new_eq] at hnew
  cases hnew
  have h := run_wf (calls.take n) ⟨⟨⟨4096, []⟩⟩, miss, hit⟩ (by simp [LRU.WF])
  refine ⟨?_, h.1.2⟩
  have h1 := h.1.1
  rw [h.2] at h1
  exact h1


/-! ### Filling the cache -/

theorem length_descFrom (d : Epoch → Duties) (lo n : Nat) : (descFrom d lo n).length = n := by
  induction n with
  | zero => rfl
  | succ n ih => simp [descFrom, ih]

theorem find_descFrom_none (d : Epoch → Duties) (lo n k : Nat) (h : k < lo ∨ lo + n ≤ k) :
    (descFrom d lo n).find? (hasKey k) = none := by
  induction n with
  | zero => rfl
  | succ n ih =>
    have hne : ¬ hasKey k ⟨lo + n, .slice (d (lo + n))⟩ = true := by
      show ¬ ((lo + n == k) = true)
      rw [beq_iff_eq]; omega
    rw [descFrom, List.find?_cons_of_neg _ hne]
    exact ih (by omega)

theorem find_descFrom_some (d : Epoch → Duties) (lo n k : Nat) (h1 : lo ≤ k) (h2 : k < lo + n) :
    (descFrom d lo n).find? (hasKey k) = some ⟨k, .slice (d k)⟩ := by
  induction n with
  | zero => omega
  | succ n ih =>
    by_cases hk : lo + n = k
    · simp [descFrom, List.find?_cons, hasKey, hk]
    · have hne : ¬ hasKey k ⟨lo + n, .slice (d (lo + n))⟩ = true := by
        show ¬ ((lo + n == k) = true)
        rw [beq_iff_eq]; exact hk
      rw [descFrom, List.find?_cons_of_neg _ hne]
      exact ih (by omega)

theorem dropLast_descFrom (d : Epoch → Duties) (lo n : Nat) :
    (descFrom d lo (n + 1)).dropLast = descFrom d (lo + 1) n := by
  induction n with
  | zero => rfl
  | succ n ih =>
    have h : descFrom d lo (n + 1 + 1)
        = ⟨lo + (n + 1), .slice (d (lo + (n + 1)))⟩ :: descFrom d lo (n + 1) := rfl
    rw [h]
    have hne : descFrom d lo (n + 1) ≠ [] := by simp [descFrom]
    rw [List.dropLast_cons_of_ne_nil hne, ih]
    have e : lo + (n + 1) = lo + 1 + n := by omega
    simp [descFrom, e]

theorem keys_descFrom (d : Epoch → Duties) (lo n : Nat) :
    (descFrom d lo n).map entry.key = (List.range' lo n).reverse := by
  induction n with
  | zero => rfl
  | succ n ih =>
    rw [List.range'_1_concat, List.reverse_append]
    simp [descFrom, ih]

theorem fill_succ (d : Epoch → Duties) (n : Nat) (s : State) :
    fill d (n + 1) s = AddProposerDuties (fill d n s) n (d n) := by
  simp [fill, List.range_succ, List.foldl_append]

/-- Filling an empty cache with `n` epochs, `n` within the capacity, evicts nothing. -/
theorem fill_eq (d : Epoch → Duties) (size miss hit : Nat) (n : Nat) (hn : n ≤ size) :
    fill d n ⟨⟨⟨size, []⟩⟩, miss, hit⟩ = ⟨⟨⟨size, descFrom d 0 n⟩⟩, miss, hit⟩ := by
  induction n with
  | zero => rfl
  | succ n ih =>
    rw [fill_succ, ih (by omega)]
    have hf := find_descFrom_none d 0 n n (Or.inr (by omega))
    have hl := length_descFrom d 0 n
    simp only [AddProposerDuties, LRU.Add, LRU.items, hf, List.length_cons, hl, descFrom,
      Nat.zero_add]
    have hno : ¬ (n + 1 > size) := by omega
    simp [hno]

/-- Adding one epoch more than the capacity evicts epoch 0 and nothing else. -/
theorem overflow_eq (d : Epoch → Duties) (size miss hit : Nat) :
    AddProposerDuties (fill d size ⟨⟨⟨size, []⟩⟩, miss, hit⟩) size (d size)
      = ⟨⟨⟨size, descFrom d 1 size⟩⟩, miss, hit⟩ := by
  rw [fill_eq d size miss hit size (le_refl _)]
  have hf := find_descFrom_none d 0 size size (Or.inr (by omega))
  have hl := length_descFrom d 0 size
  have hd := dropLast_descFrom d 0 size
  simp only [descFrom, Nat.zero_add] at hd
  simp [AddProposerDuties, LRU.Add, LRU.items, hf, hl, LRU.removeOldest, hd]

/-- A read of an absent epoch is a miss and changes only the miss counter. -/
theorem get_absent (s : State) (E : Epoch) (h : s.c.cache.items E = none) :
    ProposerDuties s E = ((none, none), { s with cacheMissCount := s.cacheMissCount + 1 }) := by
  simp [ProposerDuties, LRU.Get, h]

/-- A read of an epoch holding a slice returns it and is a hit. -/
theorem get_present (s : State) (E : Epoch) (d : Duties)
    (h : s.c.cache.items E = some ⟨E, .slice d⟩) :
    (ProposerDuties s E).1 = (d, none) ∧
    (ProposerDuties s E).2.cacheHitCount = s.cacheHitCount + 1 ∧
    (ProposerDuties s E).2.cacheMissCount = s.cacheMissCount := by
  simp [ProposerDuties, LRU.Get, h, Item.notNil, Item.toDuties]

/-- C2: starting from a new cache, after `AddProposerDuties` for the epochs
`0, 1, ..., 4095` in that order and then for epoch `4096`, with no reads in between,
`ProposerDuties(0)` returns absent (counted as a miss) and `ProposerDuties(k)` returns the
duties stored for `k` (counted as a hit) for every `k` with `1 ≤ k ≤ 4096`; the epochs held
are exactly `4096, 4095, ..., 1`, so the evicted entry is the least recently used one. -/
theorem lru_evicted_on_overflow (c0 : ConsensusDataCache)
    (hnew : NewConsensusDataCache = some c0) (miss hit : Nat) (d : Epoch → Duties)
    (k : Nat) (h1 : 1 ≤ k) (h2 : k ≤ 4096) :
    (ProposerDuties (fillThenOverflow d ⟨c0, miss, hit⟩) 0).1 = (none, none) ∧
    (ProposerDuties (fillThenOverflow d ⟨c0, miss, hit⟩) 0).2.cacheMissCount = miss + 1 ∧
    (ProposerDuties (fillThenOverflow d ⟨c0, miss, hit⟩) 0).2.cacheHitCount = hit ∧
    (ProposerDuties (fillThenOverflow d ⟨c0, miss, hit⟩) k).1 = (d k, none) ∧
    (ProposerDuties (fillThenOverflow d ⟨c0, miss, hit⟩) k).2.cacheHitCount = hit + 1 ∧
    (ProposerDuties (fillThenOverflow d ⟨c0, miss, hit⟩) k).2.cacheMissCount = miss ∧
    (fillThenOverflow d ⟨c0, miss, hit⟩).epochs = (List.range' 1 4096).reverse := by
  rw [new_eq] at hnew
  cases hnew
  have ho : fillThenOverflow d ⟨⟨⟨4096, []⟩⟩, miss, hit⟩
      = ⟨⟨⟨4096, descFrom d 1 4096⟩⟩, miss, hit⟩ := overflow_eq d 4096 miss hit
  rw [ho]
  have h0 : (⟨⟨⟨4096, descFrom d 1 4096⟩⟩, miss, hit⟩ : State).c.cache.items 0 = none :=
    find_descFrom_none d 1 4096 0 (Or.inl (by omega))
  have hk : (⟨⟨⟨4096, descFrom d 1 4096⟩⟩, miss, hit⟩ : State).c.cache.items k
      = some ⟨k, .slice (d k)⟩ := find_descFrom_some d 1 4096 k h1 (by omega)
  have g0 := get_absent _ 0 h0
  have gk := get_present _ k (d k) hk
  refine ⟨?_, ?_, ?_, gk.1, gk.2.1, gk.2.2, keys_descFrom d 1 4096⟩
  · rw [g0]
  · rw [g0]
  · rw [g0]

/-- C4: `ProposerDuties` never fails: for every cache state and every epoch `E` the error
returned is nil and exactly one of the two counters goes up by one; when `E` has no entry,
the duty list returned is nil, the miss counter goes up by one, the hit counter is unchanged
and the cache (its epochs and their values) is unchanged. -/
theorem proposerDuties_never_fails (s : State) (E : Epoch) :
    (ProposerDuties s E).1.2 = none ∧
    (((ProposerDuties s E).2.cacheHitCount = s.cacheHitCount + 1 ∧
        (ProposerDuties s E).2.cacheMissCount = s.cacheMissCount) ∨
      ((ProposerDuties s E).2.cacheMissCount = s.cacheMissCount + 1 ∧
        (ProposerDuties s E).2.cacheHitCount = s.cacheHitCount)) ∧
    (s.c.cache.items E = none →
      (ProposerDuties s E).1.1 = none ∧
      (ProposerDuties s E).2.cacheMissCount = s.cacheMissCount + 1 ∧
      (ProposerDuties s E).2.cacheHitCount = s.cacheHitCount ∧
      (ProposerDuties s E).2.c = s.c) := by
  refine ⟨?_, ?_, ?_⟩
  · simp only [ProposerDuties]; split <;> rfl
  · simp only [ProposerDuties]
    split
    · left; exact ⟨rfl, rfl⟩
    · right; exact ⟨rfl, rfl⟩
  · intro h
    rw [get_absent s E h]
    exact ⟨rfl, rfl, rfl, rfl⟩


/-- The round trip of C1 on a new cache, for epoch 10. -/
theorem add_then_get_witness :
    0 < (⟨⟨⟨4096, []⟩⟩, 0, 0⟩ : State).c.cache.size ∧
    ((ProposerDuties (AddProposerDuties ⟨⟨⟨4096, []⟩⟩, 0, 0⟩ 10 (some [7, 9])) 10).1
        = (some [7, 9], none) ∧
      (ProposerDuties (AddProposerDuties ⟨⟨⟨4096, []⟩⟩, 0, 0⟩ 10 (some [7, 9])) 10).2.cacheHitCount
        = 0 + 1 ∧
      (ProposerDuties (AddProposerDuties ⟨⟨⟨4096, []⟩⟩, 0, 0⟩ 10 (some [7, 9])) 10).2.cacheMissCount
        = 0) :=
  ⟨by decide, add_then_get ⟨⟨⟨4096, []⟩⟩, 0, 0⟩ (by decide) 10 (some [7, 9])⟩

/-- The eviction of C2 read at epoch 1, each epoch `k` holding the duties `[k]`. -/
theorem lru_evicted_on_overflow_witness :
    (NewConsensusDataCache = some ⟨⟨4096, []⟩⟩ ∧ 1 ≤ 1 ∧ 1 ≤ 4096) ∧
    ((ProposerDuties (fillThenOverflow (fun k => some [k]) ⟨⟨⟨4096, []⟩⟩, 0, 0⟩) 0).1
        = (none, none) ∧
      (ProposerDuties (fillThenOverflow (fun k => some [k]) ⟨⟨⟨4096, []⟩⟩, 0, 0⟩)
          0).2.cacheMissCount = 0 + 1 ∧
      (ProposerDuties (fillThenOverflow (fun k => some [k]) ⟨⟨⟨4096, []⟩⟩, 0, 0⟩)
          0).2.cacheHitCount = 0 ∧
      (ProposerDuties (fillThenOverflow (fun k => some [k]) ⟨⟨⟨4096, []⟩⟩, 0, 0⟩)
          (1 : Nat)).1 = (some [1], none) ∧
      (ProposerDuties (fillThenOverflow (fun k => some [k]) ⟨⟨⟨4096, []⟩⟩, 0, 0⟩)
          (1 : Nat)).2.cacheHitCount = 0 + 1 ∧
      (ProposerDuties (fillThenOverflow (fun k => some [k]) ⟨⟨⟨4096, []⟩⟩, 0, 0⟩)
          (1 : Nat)).2.cacheMissCount = 0 ∧
      (fillThenOverflow (fun k => some [k]) ⟨⟨⟨4096, []⟩⟩, 0, 0⟩).epochs
        = (List.range' 1 4096).reverse) := by
  have h := lru_evicted_on_overflow ⟨⟨4096, []⟩⟩ new_eq 0 0 (fun k => some [k]) 1
    (Nat.le_refl 1) (by omega)
  exact ⟨⟨new_eq, Nat.le_refl 1, by omega⟩, h⟩

/-- The bound of C3 after three calls on a new cache. -/
theorem size_bounded_witness :
    NewConsensusDataCache = some ⟨⟨4096, []⟩⟩ ∧
    ((run ⟨⟨⟨4096, []⟩⟩, 0, 0⟩
        ([Call.add 1 (some [7]), Call.get 1, Call.add 2 none].take 3)).c.cache.Len ≤ 4096 ∧
      (run ⟨⟨⟨4096, []⟩⟩, 0, 0⟩
        ([Call.add 1 (some [7]), Call.get 1, Call.add 2 none].take 3)).epochs.Nodup) :=
  ⟨new_eq, size_bounded ⟨⟨4096, []⟩⟩ new_eq 0 0 _ 3⟩

/-- The miss of C4 on a cache holding epoch 10 only, read at epoch 11. -/
theorem proposerDuties_never_fails_witness :
    (⟨⟨⟨4096, [⟨10, .slice (some [7, 9])⟩]⟩⟩, 0, 0⟩ : State).c.cache.items 11 = none ∧
    ((ProposerDuties ⟨⟨⟨4096, [⟨10, .slice (some [7, 9])⟩]⟩⟩, 0, 0⟩ 11).1.1 = none ∧
      (ProposerDuties ⟨⟨⟨4096, [⟨10, .slice (some [7, 9])⟩]⟩⟩, 0, 0⟩ 11).2.cacheMissCount
        = 0 + 1 ∧
      (ProposerDuties ⟨⟨⟨4096, [⟨10, .slice (some [7, 9])⟩]⟩⟩, 0, 0⟩ 11).2.cacheHitCount = 0 ∧
      (ProposerDuties ⟨⟨⟨4096, [⟨10, .slice (some [7, 9])⟩]⟩⟩, 0, 0⟩ 11).2.c
        = ⟨⟨4096, [⟨10, .slice (some [7, 9])⟩]⟩⟩) :=
  ⟨by decide,
    (proposerDuties_never_fails ⟨⟨⟨4096, [⟨10, .slice (some [7, 9])⟩]⟩⟩, 0, 0⟩ 11).2.2
      (by decide)⟩

end cache

namespace strconv

/-! ## Properties of the integer parser: parsing the decimal rendering of a number -/

theorem digitVal_digitChar (m : Nat) (h : m < 10) : digitVal (Nat.digitChar m) = some m := by
  interval_cases m <;> rfl

theorem digitChar_not_sign (m : Nat) (h : m < 10) :
    (Nat.digitChar m == '-') = false ∧ (Nat.digitChar m == '+') = false := by
  interval_cases m <;> exact ⟨rfl, rfl⟩

theorem fastLoop_cons (c : Char) (d : Nat) (ds : List Char) (a : Nat)
    (hc : digitVal c = some d) : fastLoop (c :: ds) a = fastLoop ds (a * 10 + d) := by
  simp only [fastLoop, hc]

theorem parseUintLoop_cons (c : Char) (d : Nat) (ds : List Char) (a : Nat)
    (hc : digitVal c = some d) (h1 : a < maxUint64 / 10 + 1) (h2 : a * 10 + d ≤ maxUint64) :
    parseUintLoop (c :: ds) a = parseUintLoop ds (a * 10 + d) := by
  have h1n : ¬ (a ≥ maxUint64 / 10 + 1) := by omega
  have h2n : ¬ (a * 10 + d > maxUint64) := by omega
  simp only [parseUintLoop, hc, h1n, h2n, if_false]

/-- The fast loop reads the digits of `n` back as `n`. -/
theorem fastLoop_toDigitsCore (fuel : Nat) :
    ∀ (n : Nat) (ds : List Char), n < fuel →
      fastLoop (Nat.toDigitsCore 10 fuel n ds) 0 = fastLoop ds n := by
  induction fuel with
  | zero => intro n ds h; omega
  | succ fuel ih =>
    intro n ds h
    have hd := digitVal_digitChar (n % 10) (Nat.mod_lt _ (by omega))
    have e : n / 10 * 10 + n % 10 = n := by omega
    simp only [Nat.toDigitsCore]
    split
    · rename_i h0
      rw [fastLoop_cons _ _ _ _ hd]
      have : 0 * 10 + n % 10 = n := by omega
      rw [this]
    · rename_i h0
      rw [ih (n / 10) _ (by omega), fastLoop_cons _ _ _ _ hd, e]

/-- The loop of `ParseUint` reads the digits of `n` back as `n` when `n` fits 64 bits. -/
theorem parseUintLoop_toDigitsCore (fuel : Nat) :
    ∀ (n : Nat) (ds : List Char), n < fuel → n < 2 ^ 64 →
      parseUintLoop (Nat.toDigitsCore 10 fuel n ds) 0 = parseUintLoop ds n := by
  induction fuel with
  | zero => intro n ds h; omega
  | succ fuel ih =>
    intro n ds h h64
    have hd := digitVal_digitChar (n % 10) (Nat.mod_lt _ (by omega))
    have e : n / 10 * 10 + n % 10 = n := by omega
    have hmax : maxUint64 = 18446744073709551615 := by decide
    simp only [Nat.toDigitsCore]
    split
    · rename_i h0
      rw [parseUintLoop_cons _ _ _ _ hd (by rw [hmax]; omega) (by rw [hmax]; omega)]
      have : 0 * 10 + n % 10 = n := by omega
      rw [this]
    · rename_i h0
      rw [ih (n / 10) _ (by omega) (by omega),
        parseUintLoop_cons _ _ _ _ hd (by rw [hmax]; omega) (by rw [hmax]; omega), e]

/-- The rendering of a number starts with a digit. -/
theorem toDigitsCore_head (fuel : Nat) :
    ∀ (n : Nat) (ds : List Char),
      ∃ m rest, m < 10 ∧ Nat.toDigitsCore 10 (fuel + 1) n ds = Nat.digitChar m :: rest := by
  induction fuel with
  | zero =>
    intro n ds
    refine ⟨n % 10, ds, Nat.mod_lt _ (by omega), ?_⟩
    simp [Nat.toDigitsCore]
  | succ fuel ih =>
    intro n ds
    by_cases h0 : n / 10 = 0
    · refine ⟨n % 10, ds, Nat.mod_lt _ (by omega), ?_⟩
      rw [Nat.toDigitsCore]; simp [h0]
    · obtain ⟨m, rest, hm, hr⟩ := ih (n / 10) (Nat.digitChar (n % 10) :: ds)
      refine ⟨m, rest, hm, ?_⟩
      rw [Nat.toDigitsCore]; simp only [h0, if_false]; exact hr

/-- A number of at least `10 ^ e` has more than `e` digits. -/
theorem toDigitsCore_length_ge (fuel : Nat) :
    ∀ (n e : Nat) (ds : List Char), n < fuel → 10 ^ e ≤ n →
      e + 1 + ds.length ≤ (Nat.toDigitsCore 10 fuel n ds).length := by
  induction fuel with
  | zero => intro n e ds h; omega
  | succ fuel ih =>
    intro n e ds h he
    simp only [Nat.toDigitsCore]
    split
    · rename_i h0
      have hn : n < 10 := by omega
      cases e with
      | zero => simp only [List.length_cons]; omega
      | succ e =>
        have : 10 ^ (e + 1) ≥ 10 := by
          have := Nat.one_le_pow e 10 (by omega)
          rw [pow_succ]; omega
        omega
    · rename_i h0
      cases e with
      | zero =>
        have := ih (n / 10) 0 (Nat.digitChar (n % 10) :: ds) (by omega) (by simp; omega)
        simp only [List.length_cons] at this
        omega
      | succ e =>
        have h10 : 10 ^ e ≤ n / 10 := by
          rw [pow_succ] at he
          omega
        have := ih (n / 10) e (Nat.digitChar (n % 10) :: ds) (by omega) h10
        simp only [List.length_cons] at this
        omega

theorem toList_toString (n : Nat) : (toString n).toList = Nat.toDigits 10 n := rfl


theorem toList_neg_toString (k : Nat) :
    ("-" ++ toString k).toList = '-' :: Nat.toDigits 10 k := rfl

/-- `Atoi` on an unsigned digit string whose value is below `2 ^ 63`. -/
theorem Atoi_of_digits (s : String) (c0 : Char) (rest : List Char) (n : Nat)
    (hs : s.toList = c0 :: rest) (hm : (c0 == '-') = false) (hp : (c0 == '+') = false)
    (hfast : fastLoop (c0 :: rest) 0 = some n)
    (hslow : parseUintLoop (c0 :: rest) 0 = .ok n) (h63 : n < 2 ^ 63) :
    Atoi s = .ok (n : Int) := by
  unfold Atoi
  simp only [hs]
  split
  · simp [hm, hp, hfast]
  · have h1 : ¬ (n ≥ 2 ^ 63) := by omega
    simp [ParseInt, ParseUint, hm, hp, hslow]
    omega

/-- `Atoi` on an unsigned digit string of 19 or more characters whose value is `2 ^ 63` or
more. -/
theorem Atoi_of_digits_large (s : String) (c0 : Char) (rest : List Char) (n : Nat)
    (hs : s.toList = c0 :: rest) (hm : (c0 == '-') = false) (hp : (c0 == '+') = false)
    (hlen : 19 ≤ (c0 :: rest).length)
    (hslow : parseUintLoop (c0 :: rest) 0 = .ok n) (h63 : 2 ^ 63 ≤ n) :
    Atoi s = .error .ErrRange := by
  unfold Atoi
  simp only [hs]
  have hl : ¬ (0 < (c0 :: rest).length ∧ (c0 :: rest).length < 19) := by omega
  rw [if_neg hl]
  simp [ParseInt, ParseUint, hm, hp, hslow]
  omega

/-- `Atoi` on a minus sign followed by a digit string whose value is at most `2 ^ 63`. -/
theorem Atoi_of_neg_digits (s : String) (body : List Char) (k : Nat)
    (hs : s.toList = '-' :: body) (hne : 1 ≤ body.length)
    (hfast : fastLoop body 0 = some k)
    (hslow : parseUintLoop body 0 = .ok k) (h63 : k ≤ 2 ^ 63) :
    Atoi s = .ok (-(k : Int)) := by
  unfold Atoi
  simp only [hs]
  have hb : body ≠ [] := by
    intro h; rw [h] at hne; simp at hne
  split
  · have h1 : ¬ (body.length < 1) := by omega
    simp [h1, hfast]
  · have h1 : ¬ (k > 2 ^ 63) := by omega
    simp [ParseInt, ParseUint, hb, hslow]
    omega

theorem Atoi_toString (n : Nat) (h : n < 2 ^ 63) : Atoi (toString n) = .ok (n : Int) := by
  obtain ⟨m, rest, hm, hr⟩ := toDigitsCore_head n n []
  have hs : (toString n).toList = Nat.digitChar m :: rest := by
    rw [toList_toString, Nat.toDigits, hr]
  have hsign := digitChar_not_sign m hm
  refine Atoi_of_digits _ _ rest n hs hsign.1 hsign.2 ?_ ?_ h
  · rw [← hr, fastLoop_toDigitsCore (n + 1) n [] (by omega)]; rfl
  · rw [← hr, parseUintLoop_toDigitsCore (n + 1) n [] (by omega) (by omega)]; rfl

theorem Atoi_toString_large (n : Nat) (h1 : 2 ^ 63 ≤ n) (h2 : n < 2 ^ 64) :
    Atoi (toString n) = .error .ErrRange := by
  obtain ⟨m, rest, hm, hr⟩ := toDigitsCore_head n n []
  have hs : (toString n).toList = Nat.digitChar m :: rest := by
    rw [toList_toString, Nat.toDigits, hr]
  have hsign := digitChar_not_sign m hm
  refine Atoi_of_digits_large _ _ rest n hs hsign.1 hsign.2 ?_ ?_ h1
  · have := toDigitsCore_length_ge (n + 1) n 18 [] (by omega) (by omega)
    rw [hr] at this
    simpa using this
  · rw [← hr, parseUintLoop_toDigitsCore (n + 1) n [] (by omega) h2]; rfl

theorem Atoi_neg_toString (k : Nat) (h : k ≤ 2 ^ 63) :
    Atoi ("-" ++ toString k) = .ok (-(k : Int)) := by
  refine Atoi_of_neg_digits _ (Nat.toDigits 10 k) k (toList_neg_toString k) ?_ ?_ ?_ h
  · obtain ⟨m, rest, _, hr⟩ := toDigitsCore_head k k []
    rw [Nat.toDigits, hr]; simp
  · rw [Nat.toDigits, fastLoop_toDigitsCore (k + 1) k [] (by omega)]; rfl
  · rw [Nat.toDigits, parseUintLoop_toDigitsCore (k + 1) k [] (by omega) (by omega)]; rfl

end strconv

namespace consensus

/-! ## Properties of the beacon watcher: the constructor -/

/-- The exported options never return an error, and leave an empty endpoint empty unless
one of them sets it. -/
theorem applyOpts_exported (calls : List OptionCall) (bw : BeaconWatcher) :
    ∃ bw1, applyOpts (calls.map OptionCall.toOption) bw = (some bw1, none) ∧
      ((∀ c ∈ calls, c.setsEndpoint = false) → bw.beaconAPIEndpoint = "" →
        bw1.beaconAPIEndpoint = "") := by
  induction calls generalizing bw with
  | nil => exact ⟨bw, rfl, fun _ h => h⟩
  | cons c t ih =>
    cases c with
    | withCache c0 =>
      obtain ⟨bw1, h1, h2⟩ := ih { bw with consensusCache := some c0 }
      refine ⟨bw1, ?_, ?_⟩
      · simpa [applyOpts, OptionCall.toOption, WithCache] using h1
      · intro hc hb
        exact h2 (fun c hct => hc c (List.mem_cons_of_mem _ hct)) hb
    | withEndpoint e =>
      obtain ⟨bw1, h1, h2⟩ := ih { bw with beaconAPIEndpoint := e }
      refine ⟨bw1, ?_, ?_⟩
      · simpa [applyOpts, OptionCall.toOption, WithEndpoint] using h1
      · intro hc hb
        have he := hc (.withEndpoint e) (List.mem_cons_self _ _)
        have he1 : e = "" := by simpa [OptionCall.setsEndpoint] using he
        exact h2 (fun c hct => hc c (List.mem_cons_of_mem _ hct)) he1
    | withGenesisTime g =>
      obtain ⟨bw1, h1, h2⟩ := ih { bw with genesis := g }
      refine ⟨bw1, ?_, ?_⟩
      · simpa [applyOpts, OptionCall.toOption, WithGenesisTime] using h1
      · intro hc hb
        exact h2 (fun c hct => hc c (List.mem_cons_of_mem _ hct)) hb

/-- C9, amended: for every list of the exported options that contains no `WithEndpoint`
option (or only `WithEndpoint("")`), `New` returns no error: it returns a watcher, whose
endpoint is the empty string. -/
theorem New_without_endpoint (calls : List OptionCall)
    (h : ∀ c ∈ calls, c.setsEndpoint = false) :
    ∃ bw, New (calls.map OptionCall.toOption) = (some bw, none) ∧
      bw.beaconAPIEndpoint = "" := by
  obtain ⟨bw1, h1, h2⟩ := applyOpts_exported calls BeaconWatcher.zero
  exact ⟨bw1, h1, h2 h rfl⟩

/-- The amended C9 for the options `WithGenesisTime(1606824023), WithEndpoint("")`. -/
theorem New_without_endpoint_witness :
    (∀ c ∈ [OptionCall.withGenesisTime 1606824023, OptionCall.withEndpoint ""],
      c.setsEndpoint = false) ∧
    ∃ bw, New ([OptionCall.withGenesisTime 1606824023, OptionCall.withEndpoint ""].map
        OptionCall.toOption) = (some bw, none) ∧ bw.beaconAPIEndpoint = "" :=
  ⟨by decide, New_without_endpoint _ (by decide)⟩

/-- C9 fails as stated: `New(WithGenesisTime(1606824023))`, with no `WithEndpoint` option,
and `New()` with no option at all both return a watcher and a nil error. -/
theorem New_without_endpoint_returns_watcher :
    New [WithGenesisTime 1606824023]
      = (some { consensusCache := none, epochClock := none, genesis := 1606824023,
                beaconAPIEndpoint := "" }, none) ∧
    New [] = (some BeaconWatcher.zero, none) ∧
    ¬ ∃ err, (New [WithGenesisTime 1606824023]).2 = some err := by
  refine ⟨rfl, rfl, ?_⟩
  rintro ⟨err, h⟩
  cases h

/-! ### The head-event handler -/

theorem toSlot_ofNat (n : Nat) (h : n < 2 ^ 64) : toSlot (n : Int) = n := by
  unfold toSlot
  norm_num
  omega

theorem toSlot_neg (k : Nat) (h1 : 1 ≤ k) (h2 : k ≤ 2 ^ 64) :
    toSlot (-(k : Int)) = 2 ^ 64 - k := by
  unfold toSlot
  norm_num
  omega

/-- The handler on the rendering of a slot below `2 ^ 63`: the coordinate is sent. -/
theorem headOf_small_slot (n : Nat) (r : Root) (h : n < 2 ^ 63) :
    headOf false (.ok { Slot := toString n, Block := r }) = some { Slot := n, Root := r } := by
  simp only [headOf, strconv.Atoi_toString n h]
  rw [toSlot_ofNat n (by omega)]
  rfl

/-- C7 fails on the code for the upper half of the unsigned range: for every slot `n` with
`2 ^ 63 ≤ n < 2 ^ 64` and every root `r`, the handler given the event whose slot string is
the decimal rendering of `n` returns early (`Atoi` reports a range error) and sends no
coordinate. -/
theorem head_slot_upper_half_dropped (n : Nat) (r : Root) (ch : Chan Coordinate)
    (h1 : 2 ^ 63 ≤ n) (h2 : n < 2 ^ 64) :
    headOf false (.ok { Slot := toString n, Block := r }) = none ∧
    handleHead false (.ok { Slot := toString n, Block := r }) ch = .dropped := by
  have h : headOf false (.ok { Slot := toString n, Block := r }) = none := by
    simp only [headOf, strconv.Atoi_toString_large n h1 h2]
    rfl
  exact ⟨h, by simp only [handleHead, h]⟩

/-- The dropped event of C7 at slot `2 ^ 63`, whose rendering is "9223372036854775808". -/
theorem head_slot_upper_half_dropped_witness :
    ((2 : Nat) ^ 63 ≤ 9223372036854775808 ∧ 9223372036854775808 < (2 : Nat) ^ 64) ∧
    toString (9223372036854775808 : Nat) = "9223372036854775808" ∧
    (headOf false (.ok { Slot := toString (9223372036854775808 : Nat), Block := ⟨[]⟩ }) = none ∧
      handleHead false (.ok { Slot := toString (9223372036854775808 : Nat), Block := ⟨[]⟩ })
        headChan = .dropped) :=
  ⟨by decide, by decide, head_slot_upper_half_dropped _ _ _ (by decide) (by decide)⟩

/-- C10 fails on the code: for every `k` with `1 ≤ k ≤ 2 ^ 63` and every root `r`, the
handler given the event whose slot string is "-k" does not drop it: `Atoi` returns `-k`,
the conversion to the unsigned slot wraps, and the coordinate with slot `2 ^ 64 - k` is
sent on the (empty) head channel. -/
theorem negative_slot_forwarded (k : Nat) (r : Root) (h1 : 1 ≤ k) (h2 : k ≤ 2 ^ 63) :
    headOf false (.ok { Slot := "-" ++ toString k, Block := r })
      = some { Slot := 2 ^ 64 - k, Root := r } ∧
    handleHead false (.ok { Slot := "-" ++ toString k, Block := r }) headChan
      = .sent { cap := 1, buf := [{ Slot := 2 ^ 64 - k, Root := r }] } := by
  have h : headOf false (.ok { Slot := "-" ++ toString k, Block := r })
      = some { Slot := 2 ^ 64 - k, Root := r } := by
    simp only [headOf, strconv.Atoi_neg_toString k h2]
    rw [toSlot_neg k h1 (by omega)]
    rfl
  refine ⟨h, ?_⟩
  simp only [handleHead, h]
  rfl

/-- The forwarded event of C10 for the slot string "-1". -/
theorem negative_slot_forwarded_witness :
    ((1 : Nat) ≤ 1 ∧ (1 : Nat) ≤ 2 ^ 63) ∧
    "-" ++ toString (1 : Nat) = "-1" ∧
    (headOf false (.ok { Slot := "-" ++ toString (1 : Nat), Block := ⟨[]⟩ })
        = some { Slot := 2 ^ 64 - 1, Root := ⟨[]⟩ } ∧
      handleHead false (.ok { Slot := "-" ++ toString (1 : Nat), Block := ⟨[]⟩ }) headChan
        = .sent { cap := 1, buf := [{ Slot := 2 ^ 64 - 1, Root := ⟨[]⟩ }] }) :=
  ⟨by decide, by decide, negative_slot_forwarded 1 ⟨[]⟩ (by decide) (by decide)⟩

/-! ### The head channel -/

/-- C8, amended: the head channel has capacity 1 and is a plain buffer: when it already
holds an undrained coordinate `c1` and a new head event decodes to `c2`, the send of the
subscriber blocks and the channel still holds `c1` (nothing is dropped); once the fetcher
has received `c1`, the send completes and the channel holds `c2`. -/
theorem send_on_full_head_channel_blocks (ctxErr : Bool) (ev : Except String headEvent)
    (c1 c2 : Coordinate) (h : headOf ctxErr ev = some c2) :
    headChan.cap = 1 ∧
    headChan.send c1 = some { cap := 1, buf := [c1] } ∧
    handleHead ctxErr ev { cap := 1, buf := [c1] } = .blocked c2 { cap := 1, buf := [c1] } ∧
    Chan.recv { cap := 1, buf := [c1] } = some (c1, { cap := 1, buf := [] }) ∧
    handleHead ctxErr ev { cap := 1, buf := [] } = .sent { cap := 1, buf := [c2] } := by
  refine ⟨rfl, rfl, ?_, rfl, ?_⟩
  · simp only [handleHead, h]; rfl
  · simp only [handleHead, h]; rfl

/-- The amended C8 for a channel holding the head of slot 1 and an event for slot 2. -/
theorem send_on_full_head_channel_blocks_witness :
    headOf false (.ok { Slot := "2", Block := ⟨[2]⟩ }) = some { Slot := 2, Root := ⟨[2]⟩ } ∧
    (headChan.cap = 1 ∧
      headChan.send { Slot := 1, Root := ⟨[1]⟩ }
        = some { cap := 1, buf := [{ Slot := 1, Root := ⟨[1]⟩ }] } ∧
      handleHead false (.ok { Slot := "2", Block := ⟨[2]⟩ })
          { cap := 1, buf := [{ Slot := 1, Root := ⟨[1]⟩ }] }
        = .blocked { Slot := 2, Root := ⟨[2]⟩ }
            { cap := 1, buf := [{ Slot := 1, Root := ⟨[1]⟩ }] } ∧
      Chan.recv { cap := 1, buf := [({ Slot := 1, Root := ⟨[1]⟩ } : Coordinate)] }
        = some ({ Slot := 1, Root := ⟨[1]⟩ }, { cap := 1, buf := [] }) ∧
      handleHead false (.ok { Slot := "2", Block := ⟨[2]⟩ }) { cap := 1, buf := [] }
        = .sent { cap := 1, buf := [{ Slot := 2, Root := ⟨[2]⟩ }] }) :=
  ⟨by decide, send_on_full_head_channel_blocks false _ _ _ (by decide)⟩

/-- C8 fails as stated: with the channel holding the head of slot 1, the handler given the
event for slot 2 blocks in its send with the channel unchanged; the send does not complete
with the channel holding the head of slot 2. -/
theorem full_head_channel_keeps_stale_head :
    handleHead false (.ok { Slot := "2", Block := ⟨[2]⟩ })
        { cap := 1, buf := [{ Slot := 1, Root := ⟨[1]⟩ }] }
      = .blocked { Slot := 2, Root := ⟨[2]⟩ } { cap := 1, buf := [{ Slot := 1, Root := ⟨[1]⟩ }] } ∧
    handleHead false (.ok { Slot := "2", Block := ⟨[2]⟩ })
        { cap := 1, buf := [{ Slot := 1, Root := ⟨[1]⟩ }] }
      ≠ .sent { cap := 1, buf := [{ Slot := 2, Root := ⟨[2]⟩ }] } := by
  decide

/-! ### The loops of `Start` -/

/-- An iteration of the block-fetch loop for a Bellatrix block returned without error
changes the log only: the feed and the watcher (with its cache) are as before. -/
theorem processHead_bellatrix (w : World) (head : Coordinate) (h : Hash) :
    processHead w head { found := true, err := none, data := .bellatrix h }
      = { w with log := w.log ++ [.infoHash h] } ∧
    (processHead w head { found := true, err := none, data := .bellatrix h }).feed = w.feed ∧
    (processHead w head { found := true, err := none, data := .bellatrix h }).bw = w.bw := by
  refine ⟨?_, ?_, ?_⟩ <;> simp [processHead]

/-- C6 fails on the code: with a watcher holding a new cache and an empty feed, for the
head at slot 4500000 with root `ab...ab` and a Bellatrix block, returned without error,
with execution block hash `cd...cd`, the iteration only writes the hash to the log: the
feed is still empty and does not hold the observation (slot, root, hash), and the cache of
the watcher is still empty. -/
theorem bellatrix_block_observation_not_on_feed :
    processHead
        { bw := { BeaconWatcher.zero with consensusCache := some ⟨⟨4096, []⟩⟩ },
          cacheMissCount := 0, cacheHitCount := 0, log := [], feed := [] }
        { Slot := 4500000, Root := ⟨List.replicate 32 0xab⟩ }
        { found := true, err := none, data := .bellatrix ⟨List.replicate 32 0xcd⟩ }
      = { bw := { BeaconWatcher.zero with consensusCache := some ⟨⟨4096, []⟩⟩ },
          cacheMissCount := 0, cacheHitCount := 0,
          log := [.infoHash ⟨List.replicate 32 0xcd⟩], feed := [] } ∧
    ({ slot := 4500000, root := ⟨List.replicate 32 0xab⟩,
       executionHash := ⟨List.replicate 32 0xcd⟩ } : HeadObservation) ∉
      (processHead
        { bw := { BeaconWatcher.zero with consensusCache := some ⟨⟨4096, []⟩⟩ },
          cacheMissCount := 0, cacheHitCount := 0, log := [], feed := [] }
        { Slot := 4500000, Root := ⟨List.replicate 32 0xab⟩ }
        { found := true, err := none, data := .bellatrix ⟨List.replicate 32 0xcd⟩ }).feed := by
  decide

/-- An iteration of the duty-refresh loop with an answer that is neither syncing nor an
error leaves everything as it was. -/
theorem refreshDuties_unchanged (w : World) (epoch : Nat) (duties : List ProposerDuty) :
    refreshDuties w epoch { syncing := false, err := none, data := duties } = w := by
  simp only [refreshDuties]
  have : ∀ (l : List ProposerDuty) (w0 : World), l.foldl (fun w1 _duty => w1) w0 = w0 := by
    intro l
    induction l with
    | nil => intro w0; rfl
    | cons a t ih => intro w0; exact ih w0
  simp [this duties w]

/-- C5 fails on the code: with a watcher holding a new cache, the tick of epoch 10 answered
without error and with `syncing = false` by the duties of validators 7 and 9 leaves the
cache empty; a read of epoch 10 after the iteration is a miss, not the list `[7, 9]`. -/
theorem duties_not_cached :
    cache.NewConsensusDataCache = some ⟨⟨4096, []⟩⟩ ∧
    (refreshDuties
        { bw := { BeaconWatcher.zero with consensusCache := some ⟨⟨4096, []⟩⟩ },
          cacheMissCount := 0, cacheHitCount := 0, log := [], feed := [] }
        10
        { syncing := false, err := none,
          data := [{ Pubkey := [1], ValidatorIndex := 7, Slot := 320 },
                   { Pubkey := [2], ValidatorIndex := 9, Slot := 321 }] }).bw.consensusCache
      = some ⟨⟨4096, []⟩⟩ ∧
    (refreshDuties
        { bw := { BeaconWatcher.zero with consensusCache := some ⟨⟨4096, []⟩⟩ },
          cacheMissCount := 0, cacheHitCount := 0, log := [], feed := [] }
        10
        { syncing := false, err := none,
          data := [{ Pubkey := [1], ValidatorIndex := 7, Slot := 320 },
                   { Pubkey := [2], ValidatorIndex := 9, Slot := 321 }] }).cachedDuties 10
      = some (none, none) := by
  rw [refreshDuties_unchanged]
  exact ⟨cache.new_eq, rfl, by decide⟩

end consensus
